import Mathlib

/-!
Verification of the fixed-width hash value library (src/src/hash.rs).

A fixed-width value of width W (the Rust types H32, H64, ..., H2048 produced by
the impl_hash! macro) is modelled as a `List Nat` of length W whose entries are
bytes.  Byte validity (`bytesWF`) is an explicit hypothesis where it matters.
Rust panics (assertion failures in bloom_part) are modelled as `none`; fallible
parsing returns `Except`.  The machine word usize is 64 bits wide, as on the
platforms the crate targets.
-/

/-- Byte validity: every entry of the list is a byte value below 256. -/
def bytesWF (v : List Nat) : Prop := ∀ b ∈ v, b < 256

instance bytesWF.dec : DecidablePred bytesWF := fun v => List.decidableBAll _ v

/-- The all-zero value of width W (source fns new and zero: all bytes 0). -/
def zero (W : Nat) : List Nat := List.replicate W 0

/-- Source clean_0x: returns s without the leading "0x", if any
(s.len() at least 2 and s[0..2] equal to "0x"). -/
def clean_0x (s : List Char) : List Char :=
  if 2 ≤ s.length ∧ s.take 2 = ['0', 'x'] then s.drop 2 else s

/-- Source log2 on a 64-bit usize: 0 for x at most 1, otherwise
64 - x.leading_zeros(), i.e. the bit length of x, counted here as the number
of exponents j < 64 with 2^j ≤ x. -/
def log2 (x : Nat) : Nat :=
  if x ≤ 1 then 0 else ((List.range 64).filter (fun j => decide (2 ^ j ≤ x))).length

/-- The per-sample byte count computed inside source bloom_part:
bloom_bytes = (log2(bloom_bits) + 7) / 8 with bloom_bits = m * 8. -/
def sample_bytes (m : Nat) : Nat := (log2 (m * 8) + 7) / 8

/-- Source BitOr impl: byte-by-byte or of two values of the same width. -/
def bitOr (a b : List Nat) : List Nat := List.zipWith (fun x y => x ||| y) a b

/-- Source BitAnd impl: byte-by-byte and of two values of the same width. -/
def bitAnd (a b : List Nat) : List Nat := List.zipWith (fun x y => x &&& y) a b

/-- Source BitXor impl: byte-by-byte xor of two values of the same width. -/
def bitXor (a b : List Nat) : List Nat := List.zipWith (fun x y => x ^^^ y) a b

/-- Source contains: self.contains(b) is (b & self) == b. -/
def contains (a b : List Nat) : Bool := bitAnd b a == b

/-- Source is_zero: self.eq(Self::new()). -/
def is_zero (W : Nat) (self : List Nat) : Bool := self == zero W

/-- Source clone_from_slice: copy min(W, src.len()) bytes from the front of
src over the front of self, returning how many bytes were copied. -/
def clone_from_slice (W : Nat) (self src : List Nat) : List Nat × Nat :=
  (src.take (min W src.length) ++ self.drop (min W src.length), min W src.length)

/-- Source from_slice: clone_from_slice onto a fresh zero value. -/
def from_slice (W : Nat) (src : List Nat) : List Nat :=
  (clone_from_slice W (zero W) src).1

/-- Source copy_to: copy min(W, dest.len()) bytes of self over the front of dest. -/
def copy_to (W : Nat) (self dest : List Nat) : List Nat :=
  self.take (min W dest.length) ++ dest.drop (min W dest.length)

/-- The inner loop of source bloom_part: starting from index = 0, repeat n
times index = (index << 8) | self.0[ptr] with ptr advancing by one. -/
def sampleBE (s : List Nat) (ptr n : Nat) : Nat :=
  (List.range n).foldl (fun index i => (index <<< 8) ||| s.getD (ptr + i) 0) 0

/-- The bit-set statement of source bloom_part:
ret[m - 1 - index / 8] |= 1 << (index % 8). -/
def bloomSet (m : Nat) (ret : List Nat) (index : Nat) : List Nat :=
  ret.set (m - 1 - index / 8) ((ret.getD (m - 1 - index / 8) 0) ||| (1 <<< (index % 8)))

/-- The outer loop of source bloom_part: p iterations, each consuming
bloom_bytes source bytes at the running pointer and setting one bit. -/
def bloomLoop (s : List Nat) (m mask bloom_bytes : Nat) : Nat → List Nat → Nat → List Nat
  | 0, ret, _ => ret
  | p + 1, ret, ptr =>
      bloomLoop s m mask bloom_bytes p
        (bloomSet m ret ((sampleBE s ptr bloom_bytes) &&& mask)) (ptr + bloom_bytes)

/-- Source bloom_part with p = 3: asserts that m is a power of two
(m & (m-1) == 0) and that 3 * bloom_bytes <= self's width; a failed assertion
is a Rust panic, modelled as none.  At every call site in the source the
target type T has width m, so the fresh T::new() is the zero value of width m. -/
def bloom_part (s : List Nat) (m : Nat) : Option (List Nat) :=
  let p := 3
  let bloom_bits := m * 8
  let mask := bloom_bits - 1
  let bloom_bytes := (log2 bloom_bits + 7) / 8
  if m &&& (m - 1) ≠ 0 then none
  else if ¬ (p * bloom_bytes ≤ s.length) then none
  else some (bloomLoop s m mask bloom_bytes p (zero m) 0)

/-- Source shift_bloomed: self.0 = (b.bloom_part(W) | self).0, where W is
the width of self. -/
def shift_bloomed (self b : List Nat) : Option (List Nat) :=
  (bloom_part b self.length).map (fun bp => bitOr bp self)

/-- Source with_bloomed: shift_bloomed on a consumed copy. -/
def with_bloomed (self b : List Nat) : Option (List Nat) := shift_bloomed self b

/-- Source contains_bloomed: self.contains(b.bloom_part(W)) with W the width
of self. -/
def contains_bloomed (self b : List Nat) : Option Bool :=
  (bloom_part b self.length).map (fun bp => contains self bp)

/-- One iteration of the source From u64 loop:
if i < W then ret[W - i - 1] = value & 0xff; value >>= 8. -/
def fromU64Step (W : Nat) (st : List Nat × Nat) (i : Nat) : List Nat × Nat :=
  if i < W then ((st.1).set (W - i - 1) (st.2 &&& 0xff), st.2 >>> 8) else st

/-- Source From u64 impl: for i in 0..8, conditionally place the low byte of
value at position W - i - 1 and shift value right by 8. -/
def from_u64 (W : Nat) (value : Nat) : List Nat :=
  ((List.range 8).foldl (fromU64Step W) (zero W, value)).1

/-- Source From H256 for Address: ret.0.copy_from_slice(value[12..32]). -/
def address_from_h256 (v : List Nat) : List Nat := (v.drop 12).take 20

/-- Source From H256 for H64: ret.0.copy_from_slice(value[20..28]). -/
def h64_from_h256 (v : List Nat) : List Nat := (v.drop 20).take 8

/-- Source From Address for H256: ret.0[12..32].copy_from_slice(value) on a
fresh zero H256. -/
def h256_from_address (v : List Nat) : List Nat :=
  (zero 32).take 12 ++ v ++ (zero 32).drop (12 + v.length)

/-- The two error kinds surfaced by strict parsing (rustc-serialize
FromHexError): an invalid character with its position, or a length mismatch. -/
inductive FromHexError where
  | invalidHexCharacter : Char → Nat → FromHexError
  | invalidHexLength : FromHexError
deriving DecidableEq

/-- Value of one hex digit, none for a non-hex character. -/
def hexVal (c : Char) : Option Nat :=
  if '0' ≤ c ∧ c ≤ '9' then some (c.toNat - Char.toNat '0')
  else if 'a' ≤ c ∧ c ≤ 'f' then some (c.toNat - Char.toNat 'a' + 10)
  else if 'A' ≤ c ∧ c ≤ 'F' then some (c.toNat - Char.toNat 'A' + 10)
  else none

/-- Modelled from the spec: the external hex decoder (rustc-serialize
from_hex), excluded from src as an external collaborator.  It scans the text
left to right, pairs hex digits into bytes, reports the first non-hex digit
as InvalidHexCharacter with its index, and an odd digit count as
InvalidHexLength. -/
def from_hexAux : List Char → Nat → Except FromHexError (List Nat)
  | [], _ => .ok []
  | [c], i =>
      match hexVal c with
      | none => .error (.invalidHexCharacter c i)
      | some _ => .error .invalidHexLength
  | c1 :: c2 :: rest, i =>
      match hexVal c1 with
      | none => .error (.invalidHexCharacter c1 i)
      | some h =>
        match hexVal c2 with
        | none => .error (.invalidHexCharacter c2 (i + 1))
        | some l => (from_hexAux rest (i + 2)).map (fun bs => (h * 16 + l) :: bs)

/-- Modelled from the spec: entry point of the external hex decoder. -/
def from_hex (s : List Char) : Except FromHexError (List Nat) := from_hexAux s 0

/-- Source FromStr impl: decode the hex text, then fail with InvalidHexLength
unless exactly W bytes were decoded. -/
def from_str (W : Nat) (s : List Char) : Except FromHexError (List Nat) :=
  match from_hex s with
  | .error e => .error e
  | .ok a => if a.length ≠ W then .error .invalidHexLength else .ok a

/-- Source From str impl (the lenient constructor): if the input has odd
length, strict-parse "0" ++ clean_0x(s), else strict-parse clean_0x(s);
on any parse failure substitute the zero value. -/
def from_text (W : Nat) (s : List Char) : List Nat :=
  if s.length % 2 = 1 then
    match from_str W ('0' :: clean_0x s) with
    | .ok a => a
    | .error _ => zero W
  else
    match from_str W (clean_0x s) with
    | .ok a => a
    | .error _ => zero W

/-- One hex digit character (lowercase), as produced by the Debug format
write!("{:02x}", byte). -/
def hexDigitChar (n : Nat) : Char :=
  if n < 10 then Char.ofNat (Char.toNat '0' + n) else Char.ofNat (Char.toNat 'a' + n - 10)

/-- Source Debug/hex rendering: each byte as two lowercase hex characters. -/
def hex (v : List Nat) : List Char :=
  (v.map (fun b => [hexDigitChar (b / 16), hexDigitChar (b % 16)])).flatten

/-- Number of set bits in one byte (bits 0 through 7). -/
def popCount8 (b : Nat) : Nat := ((List.range 8).filter (fun j => b.testBit j)).length

/-- Total number of set bits in a value whose entries are bytes. -/
def countBits (v : List Nat) : Nat := (v.map popCount8).sum

/-- The big-endian unsigned integer denoted by a byte string. -/
def beBytes (l : List Nat) : Nat := l.foldl (fun acc b => acc * 256 + b) 0

/-- The i-th run of n consecutive leading bytes of s (runs are disjoint). -/
def bloomRun (s : List Nat) (n i : Nat) : List Nat := (s.drop (i * n)).take n

/-- The bit index chosen by sample i of bloom_part: the big-endian integer of
run i of sample_bytes(m) leading bytes of s, masked with m*8 - 1. -/
def bloomIndex (s : List Nat) (m i : Nat) : Nat :=
  beBytes (bloomRun s (sample_bytes m) i) &&& (m * 8 - 1)

/-- Total value of one hex digit character (0 for non-hex characters). -/
def hexDigit (c : Char) : Nat := (hexVal c).getD 0

/-- The lenient constructor as the spec words it: strip the "0x" first, then
left-pad the remaining text with one "0" digit if it has odd length, then
strict-parse, substituting the zero value on failure.  To be compared with
from_text, which tests the parity of the whole input including the prefix. -/
def from_textSpec (W : Nat) (s : List Char) : List Nat :=
  match from_str W (if (clean_0x s).length % 2 = 1 then '0' :: clean_0x s else clean_0x s) with
  | .ok a => a
  | .error _ => zero W

/-- A sequence of shift_bloomed insertions into a filter. -/
def insertAll (filter : List Nat) (items : List (List Nat)) : Option (List Nat) :=
  items.foldl (fun acc it => acc.bind (fun f => shift_bloomed f it)) (some filter)

/-- The per-sample byte count the claim prescribes: ceil(bits_needed / 8),
where bits_needed is the number of exponents j with 2^(j+1) ≤ m*8, i.e. for
m*8 = 2^n the minimal bit count n addressing every position in [0, m*8). -/
def claimed_sample_bytes (m : Nat) : Nat :=
  (((List.range 64).filter (fun j => decide (2 ^ (j + 1) ≤ m * 8))).length + 7) / 8

example : bloom_part [1, 2, 3] 8 = some [0, 0, 0, 0, 0, 0, 0, 14] := by decide

example : sample_bytes 8 = 1 ∧ sample_bytes 32 = 2 ∧ sample_bytes 256 = 2 := by decide

example : from_str 2 (("0a1f".data)) = .ok [10, 31] := by rfl

example : from_text 8 (("0x34567890abcdef".data)) = zero 8 := by decide

/-! ## Bitwise helper lemmas -/

theorem nat_and_or_absorb (x y : Nat) : x &&& (x ||| y) = x := by
  apply Nat.eq_of_testBit_eq
  intro i
  simp only [Nat.testBit_and, Nat.testBit_or]
  cases x.testBit i <;> simp

theorem nat_and_of_and_eq (x y z : Nat) (h : x &&& y = x) : x &&& (z ||| y) = x := by
  apply Nat.eq_of_testBit_eq
  intro i
  have h2 : (x &&& y).testBit i = x.testBit i := by rw [h]
  simp only [Nat.testBit_and, Nat.testBit_or] at h2 ⊢
  cases hx : x.testBit i
  · simp
  · rw [hx] at h2
    simp only [Bool.true_and] at h2
    simp [h2]

theorem bitAnd_comm (a b : List Nat) : bitAnd a b = bitAnd b a :=
  List.zipWith_comm_of_comm _ Nat.and_comm a b

theorem bitOr_comm (a b : List Nat) : bitOr a b = bitOr b a :=
  List.zipWith_comm_of_comm _ Nat.or_comm a b

theorem bitAnd_bitOr_absorb (a : List Nat) :
    ∀ b : List Nat, a.length = b.length → bitAnd a (bitOr a b) = a := by
  induction a with
  | nil => intro b h; rfl
  | cons x t ih =>
    intro b h
    cases b with
    | nil => simp at h
    | cons y u =>
      have h2 : t.length = u.length := by simpa using h
      simp only [bitAnd, bitOr, List.zipWith_cons_cons, List.cons.injEq]
      exact ⟨nat_and_or_absorb x y, ih u h2⟩

theorem bitAnd_bitOr_mono (b : List Nat) :
    ∀ f x : List Nat, x.length = f.length → bitAnd b f = b → bitAnd b (bitOr x f) = b := by
  induction b with
  | nil => intro f x _ _; rfl
  | cons b0 bt ih =>
    intro f x hx h
    cases f with
    | nil => simp [bitAnd] at h
    | cons f0 ft =>
      cases x with
      | nil => simp at hx
      | cons x0 xt =>
        simp only [bitAnd, bitOr, List.zipWith_cons_cons, List.cons.injEq] at h ⊢
        exact ⟨nat_and_of_and_eq b0 f0 x0 h.1, ih ft xt (by simp at hx; omega) h.2⟩

theorem contains_bitOr_self (bp f : List Nat) (h : bp.length = f.length) :
    contains (bitOr bp f) bp = true := by
  simp only [contains, beq_iff_eq]
  exact bitAnd_bitOr_absorb bp f h

theorem contains_bitOr_mono (f bp x : List Nat) (hx : x.length = f.length)
    (h : contains f bp = true) : contains (bitOr x f) bp = true := by
  simp only [contains, beq_iff_eq] at h ⊢
  exact bitAnd_bitOr_mono bp f x hx h

/-- C4: for values of identical width, contains(a, b) equals ((a AND b) == b),
containment is monotone under OR, and contains(a|b, a), contains(a|b, b)
always hold. -/
theorem contains_and_or_spec (a b c : List Nat) (hab : a.length = b.length)
    (hac : a.length = c.length) :
    contains a b = (bitAnd a b == b) ∧
    (contains a b = true → contains (bitOr a c) b = true) ∧
    contains (bitOr a b) a = true ∧
    contains (bitOr a b) b = true := by
  refine ⟨?_, ?_, ?_, ?_⟩
  · unfold contains; rw [bitAnd_comm]
  · intro h
    rw [bitOr_comm]
    exact contains_bitOr_mono a b c hac.symm h
  · exact contains_bitOr_self a b hab
  · rw [bitOr_comm]
    exact contains_bitOr_self b a hab.symm

/-- Witness for C4 at concrete values of equal width. -/
theorem contains_and_or_spec_witness :
    contains [3, 5] [1, 4] = (bitAnd [3, 5] [1, 4] == [1, 4]) ∧
    (contains [3, 5] [1, 4] = true → contains (bitOr [3, 5] [2, 2]) [1, 4] = true) ∧
    contains (bitOr [3, 5] [1, 4]) [3, 5] = true ∧
    contains (bitOr [3, 5] [1, 4]) [1, 4] = true :=
  contains_and_or_spec [3, 5] [1, 4] [2, 2] (by decide) (by decide)

/-- C5: building a value from a W-byte slice and copying it back out into a
W-byte destination reproduces the bytes exactly. -/
theorem from_slice_copy_to_roundtrip (W : Nat) (bytes dest : List Nat)
    (hb : bytes.length = W) (hd : dest.length = W) :
    copy_to W (from_slice W bytes) dest = bytes := by
  subst hb
  have h1 : from_slice bytes.length bytes = bytes := by
    simp [from_slice, clone_from_slice, zero, List.drop_replicate]
  rw [h1]
  simp [copy_to, hd, List.take_length, List.drop_length]

/-- Witness for C5 at a concrete 4-byte value. -/
theorem from_slice_copy_to_roundtrip_witness :
    copy_to 4 (from_slice 4 [9, 8, 7, 6]) [1, 2, 3, 4] = [9, 8, 7, 6] :=
  from_slice_copy_to_roundtrip 4 [9, 8, 7, 6] [1, 2, 3, 4] (by decide) (by decide)

/-- C9: a 20-byte identifier embeds right-aligned into a 32-byte digest
(leading 12 bytes zero), extraction takes the trailing 20 bytes so the round
trip is the identity, and the 8-byte derivative copies exactly the bytes at
offsets [20, 28) of the digest. -/
theorem address_h256_embed_extract (a w : List Nat) (ha : a.length = 20)
    (hw : w.length = 32) :
    h256_from_address a = zero 12 ++ a ∧
    (h256_from_address a).length = 32 ∧
    address_from_h256 (h256_from_address a) = a ∧
    address_from_h256 w = w.drop 12 ∧
    (address_from_h256 w).length = 20 ∧
    (h64_from_h256 w).length = 8 ∧
    (∀ j, j < 8 → (h64_from_h256 w).getD j 0 = w.getD (20 + j) 0) := by
  have hembed : h256_from_address a = zero 12 ++ a := by
    simp [h256_from_address, zero, ha, List.take_replicate, List.drop_replicate]
  refine ⟨hembed, ?_, ?_, ?_, ?_, ?_, ?_⟩
  · simp [hembed, zero, ha]
  · rw [hembed, address_from_h256]
    have hdrop : List.drop 12 (zero 12 ++ a) = a := by
      have h12 : (zero 12).length = 12 := by simp [zero]
      conv_lhs => rw [← h12]
      exact List.drop_left _ _
    rw [hdrop, ← ha, List.take_length]
  · rw [address_from_h256]
    have : (w.drop 12).length = 20 := by simp [hw]
    rw [← this, List.take_length]
  · simp [address_from_h256, hw]
  · simp [h64_from_h256, hw]
  · intro j hj
    have hl : (h64_from_h256 w).length = 8 := by simp [h64_from_h256, hw]
    rw [List.getD_eq_getElem _ _ (by omega),
        List.getD_eq_getElem _ _ (by omega : 20 + j < w.length)]
    simp [h64_from_h256, List.getElem_take, List.getElem_drop]

/-- Witness for C9 at a concrete identifier and digest. -/
theorem address_h256_embed_extract_witness :
    address_from_h256 (h256_from_address (List.replicate 19 0 ++ [7])) =
      List.replicate 19 0 ++ [7] ∧
    (h64_from_h256 (List.replicate 31 0 ++ [5])).getD 7 0 =
      (List.replicate 31 0 ++ [5]).getD 27 0 :=
  ⟨(address_h256_embed_extract (List.replicate 19 0 ++ [7]) (List.replicate 31 0 ++ [5])
      (by decide) (by decide)).2.2.1,
   (address_h256_embed_extract (List.replicate 19 0 ++ [7]) (List.replicate 31 0 ++ [5])
      (by decide) (by decide)).2.2.2.2.2.2 7 (by decide)⟩

/-! ## Text parsing -/

theorem clean_0x_parity (s : List Char) : (clean_0x s).length % 2 = s.length % 2 := by
  unfold clean_0x
  split
  · rename_i h
    simp only [List.length_drop]
    omega
  · rfl

/-- C7: the lenient constructor strips an optional "0x", left-pads odd-length
remaining text with one "0" digit, then strict-parses, silently substituting
the zero value on any failure; concretely a 14-digit input on an 8-byte value
yields zero and a 15-digit input parses to 0x0234567890abcdef. -/
theorem from_text_spec (W : Nat) (s : List Char) :
    from_text W s = from_textSpec W s ∧
    from_text 8 (("0x34567890abcdef".data)) = zero 8 ∧
    from_text 8 (("0x234567890abcdef".data)) =
      [0x02, 0x34, 0x56, 0x78, 0x90, 0xab, 0xcd, 0xef] := by
  refine ⟨?_, by decide, by decide⟩
  unfold from_text from_textSpec
  rw [clean_0x_parity]
  by_cases h : s.length % 2 = 1
  · simp [h]
  · simp [h]

theorem pair_induction {P : List Char → Prop} (h0 : P []) (h1 : ∀ a, P [a])
    (h2 : ∀ a b l, P l → P (a :: b :: l)) : ∀ l, P l
  | [] => h0
  | [a] => h1 a
  | a :: b :: l => h2 a b l (pair_induction h0 h1 h2 l)

theorem from_hexAux_odd (s : List Char) : ∀ i, (∀ c ∈ s, (hexVal c).isSome) →
    s.length % 2 = 1 → from_hexAux s i = .error .invalidHexLength := by
  induction s using pair_induction with
  | h0 => intro i _ h; simp at h
  | h1 a =>
    intro i hall _
    have ha := hall a (by simp)
    obtain ⟨va, hva⟩ := Option.isSome_iff_exists.mp ha
    simp [from_hexAux, hva]
  | h2 a b l ih =>
    intro i hall hodd
    obtain ⟨va, hva⟩ := Option.isSome_iff_exists.mp (hall a (by simp))
    obtain ⟨vb, hvb⟩ := Option.isSome_iff_exists.mp (hall b (by simp))
    have hrec := ih (i + 2) (fun c hc => hall c (by simp [hc])) (by simp at hodd ⊢; omega)
    simp [from_hexAux, hva, hvb, hrec, Except.map]

theorem from_hexAux_badchar (s : List Char) : ∀ i, (∃ c ∈ s, hexVal c = none) →
    ∃ c j, from_hexAux s i = .error (.invalidHexCharacter c j) := by
  induction s using pair_induction with
  | h0 => intro i h; simp at h
  | h1 a =>
    intro i h
    have ha : hexVal a = none := by simpa using h
    exact ⟨a, i, by simp [from_hexAux, ha]⟩
  | h2 a b l ih =>
    intro i h
    cases hva : hexVal a with
    | none => exact ⟨a, i, by simp [from_hexAux, hva]⟩
    | some va =>
      cases hvb : hexVal b with
      | none => exact ⟨b, i + 1, by simp [from_hexAux, hva, hvb]⟩
      | some vb =>
        have hl : ∃ c ∈ l, hexVal c = none := by
          rcases h with ⟨c, hc, hcn⟩
          simp only [List.mem_cons] at hc
          rcases hc with hc | hc | hc
          · subst hc; rw [hva] at hcn; cases hcn
          · subst hc; rw [hvb] at hcn; cases hcn
          · exact ⟨c, hc, hcn⟩
        obtain ⟨c, j, hcj⟩ := ih (i + 2) hl
        exact ⟨c, j, by simp [from_hexAux, hva, hvb, hcj, Except.map]⟩

theorem from_hexAux_ok (s : List Char) : ∀ i, (∀ c ∈ s, (hexVal c).isSome) →
    s.length % 2 = 0 →
    ∃ bs, from_hexAux s i = .ok bs ∧ bs.length = s.length / 2 ∧
      ∀ j, j < bs.length → bs.getD j 0 =
        16 * hexDigit (s.getD (2 * j) ' ') + hexDigit (s.getD (2 * j + 1) ' ') := by
  induction s using pair_induction with
  | h0 =>
    intro i _ _
    exact ⟨[], rfl, by simp, by intro j hj; simp at hj⟩
  | h1 a => intro i _ heven; simp at heven
  | h2 a b l ih =>
    intro i hall heven
    obtain ⟨va, hva⟩ := Option.isSome_iff_exists.mp (hall a (by simp))
    obtain ⟨vb, hvb⟩ := Option.isSome_iff_exists.mp (hall b (by simp))
    obtain ⟨bs, hbs, hlen, hchar⟩ :=
      ih (i + 2) (fun c hc => hall c (by simp [hc])) (by simp at heven ⊢; omega)
    refine ⟨(va * 16 + vb) :: bs,
      by simp [from_hexAux, hva, hvb, hbs, Except.map], ?_, ?_⟩
    · simp only [List.length_cons, hlen]
      omega
    · intro j hj
      cases j with
      | zero => simp [hexDigit, hva, hvb, Nat.mul_comm]
      | succ j2 =>
        have hrec := hchar j2 (by simp at hj; omega)
        have e1 : 2 * (j2 + 1) = 2 * j2 + 1 + 1 := by omega
        have e2 : 2 * (j2 + 1) + 1 = 2 * j2 + 1 + 1 + 1 := by omega
        rw [e2, e1]
        simp only [List.getD_cons_succ]
        exact hrec

/-- C6: strict parsing fails with InvalidHexLength whenever the decoded byte
count cannot equal W (all-hex text of length other than 2W), fails with an
invalid-character error whenever the text contains a non-hex digit, and
otherwise succeeds returning exactly the W decoded bytes; the error is
returned to the caller. -/
theorem from_str_spec (W : Nat) (s : List Char) :
    ((∀ c ∈ s, (hexVal c).isSome) → s.length ≠ 2 * W →
      from_str W s = .error .invalidHexLength) ∧
    ((∃ c ∈ s, hexVal c = none) →
      ∃ c i, from_str W s = .error (.invalidHexCharacter c i)) ∧
    ((∀ c ∈ s, (hexVal c).isSome) → s.length = 2 * W →
      ∃ bs, from_str W s = .ok bs ∧ bs.length = W ∧
        ∀ j, j < W → bs.getD j 0 =
          16 * hexDigit (s.getD (2 * j) ' ') + hexDigit (s.getD (2 * j + 1) ' ')) := by
  refine ⟨?_, ?_, ?_⟩
  · intro hall hne
    by_cases hpar : s.length % 2 = 1
    · have h := from_hexAux_odd s 0 hall hpar
      simp [from_str, from_hex, h]
    · have hev : s.length % 2 = 0 := by omega
      obtain ⟨bs, hbs, hlen, _⟩ := from_hexAux_ok s 0 hall hev
      have hne2 : bs.length ≠ W := by omega
      simp [from_str, from_hex, hbs, hne2]
  · intro hbad
    obtain ⟨c, j, hcj⟩ := from_hexAux_badchar s 0 hbad
    exact ⟨c, j, by simp [from_str, from_hex, hcj]⟩
  · intro hall hlen2
    obtain ⟨bs, hbs, hlen, hchar⟩ := from_hexAux_ok s 0 hall (by omega)
    have hW : bs.length = W := by omega
    exact ⟨bs, by simp [from_str, from_hex, hbs, hW], hW,
      fun j hj => hchar j (by omega)⟩

/-- Witness for C6 at concrete inputs exercising all three cases. -/
theorem from_str_spec_witness :
    from_str 1 (("abcd".data)) = .error .invalidHexLength ∧
    (∃ c i, from_str 2 (("0xzz".data)) = .error (.invalidHexCharacter c i)) ∧
    (∃ bs, from_str 2 (("0a1f".data)) = .ok bs ∧ bs.length = 2 ∧
      ∀ j, j < 2 → bs.getD j 0 =
        16 * hexDigit ((("0a1f".data)).getD (2 * j) ' ') +
          hexDigit ((("0a1f".data)).getD (2 * j + 1) ' ')) :=
  ⟨(from_str_spec 1 (("abcd".data))).1 (by decide) (by decide),
   (from_str_spec 2 (("0xzz".data))).2.1 (by decide),
   (from_str_spec 2 (("0a1f".data))).2.2 (by decide) (by decide)⟩

/-! ## Construction from u64 -/

theorem getD_set (l : List Nat) (i j a : Nat) :
    (l.set i a).getD j 0 = if i = j ∧ j < l.length then a else l.getD j 0 := by
  induction l generalizing i j with
  | nil => simp
  | cons x t ih =>
    cases i with
    | zero =>
      cases j with
      | zero => simp
      | succ j2 => simp
    | succ i2 =>
      cases j with
      | zero => simp
      | succ j2 =>
        rw [List.set_cons_succ, List.getD_cons_succ, List.getD_cons_succ, ih]
        by_cases h : i2 = j2 ∧ j2 < t.length
        · rw [if_pos h, if_pos (by simp; omega)]
        · rw [if_neg h, if_neg (by simp; omega)]

theorem getD_zero_val (W j : Nat) : (zero W).getD j 0 = 0 := by
  induction W generalizing j with
  | zero => simp [zero]
  | succ W2 ih =>
    cases j with
    | zero => simp [zero, List.replicate_succ]
    | succ j2 =>
      simp only [zero, List.replicate_succ, List.getD_cons_succ]
      exact ih j2

theorem from_u64_fold (W v : Nat) : ∀ n,
    ((List.range n).foldl (fromU64Step W) (zero W, v)).2 = v >>> (8 * min n W) ∧
    ((List.range n).foldl (fromU64Step W) (zero W, v)).1.length = W ∧
    ∀ p, ((List.range n).foldl (fromU64Step W) (zero W, v)).1.getD p 0 =
      if W - min n W ≤ p ∧ p < W then (v >>> (8 * (W - 1 - p))) &&& 255 else 0 := by
  intro n
  induction n with
  | zero =>
    refine ⟨by simp, by simp [zero], ?_⟩
    intro p
    rw [if_neg (by omega)]
    exact getD_zero_val W p
  | succ n ih =>
    obtain ⟨ihv, ihlen, ihget⟩ := ih
    have hstep : (List.range (n + 1)).foldl (fromU64Step W) (zero W, v)
        = fromU64Step W ((List.range n).foldl (fromU64Step W) (zero W, v)) n := by
      rw [List.range_succ, List.foldl_append]
      rfl
    rw [hstep]
    by_cases hn : n < W
    · have hmin : min n W = n := by omega
      have hmin2 : min (n + 1) W = n + 1 := by omega
      rw [hmin] at ihv
      rw [hmin2]
      refine ⟨?_, ?_, ?_⟩
      · simp only [fromU64Step, if_pos hn]
        rw [ihv, ← Nat.shiftRight_add]
        congr 1 <;> omega
      · simp only [fromU64Step, if_pos hn]
        simp [List.length_set, ihlen]
      · intro p
        simp only [fromU64Step, if_pos hn]
        rw [getD_set, ihlen, ihv]
        by_cases hp : W - n - 1 = p ∧ p < W
        · rw [if_pos hp, if_pos (by omega)]
          have he : W - 1 - p = n := by omega
          rw [he]
        · rw [if_neg hp, ihget p, hmin]
          by_cases hq : W - n ≤ p ∧ p < W
          · rw [if_pos hq, if_pos (by omega)]
          · rw [if_neg hq, if_neg (by omega)]
    · have hmin : min n W = W := by omega
      have hmin2 : min (n + 1) W = W := by omega
      simp only [fromU64Step, if_neg hn]
      have hEq : min (n + 1) W = min n W := by omega
      rw [hEq]
      exact ⟨ihv, ihlen, ihget⟩

/-- C8: From u64 packs the integer big-endian into the rightmost min(W, 8)
bytes, leaving leading bytes zero; when W < 8 only the low-order bytes that
fit are kept.  Concretely the 16-byte value from 0x1234567890abcdef renders
as hex 00000000000000001234567890abcdef and the 4-byte value as 90abcdef. -/
theorem from_u64_spec (W value : Nat) (hv : value < 2 ^ 64) :
    (from_u64 W value).length = W ∧
    (∀ i, i < W - min W 8 → (from_u64 W value).getD i 0 = 0) ∧
    (∀ j, j < min W 8 →
      (from_u64 W value).getD (W - 1 - j) 0 = (value >>> (8 * j)) &&& 255) ∧
    hex (from_u64 16 0x1234567890abcdef) =
      ("00000000000000001234567890abcdef".data) ∧
    hex (from_u64 4 0x1234567890abcdef) = ("90abcdef".data) := by
  obtain ⟨hsnd, hlen, hget⟩ := from_u64_fold W value 8
  have hdef : from_u64 W value
      = ((List.range 8).foldl (fromU64Step W) (zero W, value)).1 := rfl
  refine ⟨by rw [hdef]; exact hlen, ?_, ?_, by decide, by decide⟩
  · intro i hi
    rw [hdef, hget i, if_neg (by omega)]
  · intro j hj
    rw [hdef, hget (W - 1 - j), if_pos (by omega)]
    congr 2
    omega

/-- Witness for C8 at the 16-byte width. -/
theorem from_u64_spec_witness :
    (from_u64 16 0x1234567890abcdef).length = 16 ∧
    (from_u64 16 0x1234567890abcdef).getD 0 0 = 0 ∧
    (from_u64 16 0x1234567890abcdef).getD 15 0 =
      (0x1234567890abcdef >>> (8 * 0)) &&& 255 :=
  ⟨(from_u64_spec 16 0x1234567890abcdef (by decide)).1,
   (from_u64_spec 16 0x1234567890abcdef (by decide)).2.1 0 (by decide),
   (from_u64_spec 16 0x1234567890abcdef (by decide)).2.2.1 0 (by decide)⟩

/-! ## Bloom encoding -/

theorem length_filter_le_range (N t : Nat) :
    ((List.range N).filter (fun j => decide (j ≤ t))).length = min (t + 1) N := by
  induction N with
  | zero => simp
  | succ N ih =>
    rw [List.range_succ, List.filter_append, List.length_append, ih]
    by_cases h : N ≤ t
    · simp [h]
      omega
    · simp [h]
      omega

theorem log2_two_pow (t : Nat) (h1 : 1 ≤ t) (h2 : t < 64) : log2 (2 ^ t) = t + 1 := by
  unfold log2
  have hge : (2:Nat) ≤ 2 ^ t := by
    calc (2:Nat) = 2 ^ 1 := rfl
    _ ≤ 2 ^ t := Nat.pow_le_pow_right (by norm_num) h1
  rw [if_neg (by omega)]
  have hf : ∀ j ∈ List.range 64, (decide (2 ^ j ≤ 2 ^ t)) = (decide (j ≤ t)) := by
    intro j _
    simp [Nat.pow_le_pow_iff_right (by norm_num : 1 < 2)]
  rw [List.filter_congr hf, length_filter_le_range]
  omega

theorem sample_bytes_two_pow (k : Nat) (hk : k + 3 < 64) :
    sample_bytes (2 ^ k) = (k + 4 + 7) / 8 := by
  unfold sample_bytes
  have h8 : (2:Nat) ^ k * 8 = 2 ^ (k + 3) := by
    rw [pow_add]
    ring
  rw [h8, log2_two_pow (k + 3) (by omega) hk]

theorem pow_two_and_sub_one (k : Nat) : 2 ^ k &&& (2 ^ k - 1) = 0 := by
  rw [Nat.and_pow_two_sub_one_eq_mod]
  exact Nat.mod_self _

theorem bloom_part_eq (s : List Nat) (m : Nat) (hpow : m &&& (m - 1) = 0)
    (hlen : 3 * sample_bytes m ≤ s.length) :
    bloom_part s m = some (bloomLoop s m (m * 8 - 1) (sample_bytes m) 3 (zero m) 0) := by
  have h1 : ¬ (m &&& (m - 1) ≠ 0) := by simp [hpow]
  have h2 : ¬ ¬ (3 * ((log2 (m * 8) + 7) / 8) ≤ s.length) := by
    simp only [not_not]
    exact hlen
  show (if m &&& (m - 1) ≠ 0 then none
    else if ¬ (3 * ((log2 (m * 8) + 7) / 8) ≤ s.length) then none
    else some (bloomLoop s m (m * 8 - 1) ((log2 (m * 8) + 7) / 8) 3 (zero m) 0)) = _
  rw [if_neg h1, if_neg h2]
  rfl

theorem bloomLoop_three (s : List Nat) (m mask n : Nat) (ret : List Nat) (ptr : Nat) :
    bloomLoop s m mask n 3 ret ptr =
      bloomSet m (bloomSet m (bloomSet m ret (sampleBE s ptr n &&& mask))
        (sampleBE s (ptr + n) n &&& mask)) (sampleBE s (ptr + n + n) n &&& mask) := rfl

theorem sampleBE_succ (s : List Nat) (ptr n : Nat) :
    sampleBE s ptr (n + 1) = (sampleBE s ptr n <<< 8) ||| s.getD (ptr + n) 0 := by
  unfold sampleBE
  rw [List.range_succ, List.foldl_append]
  rfl

theorem beBytes_append_one (l : List Nat) (b : Nat) :
    beBytes (l ++ [b]) = beBytes l * 256 + b := by
  unfold beBytes
  rw [List.foldl_append]
  rfl

theorem sampleBE_eq_beBytes (s : List Nat) (hwf : bytesWF s) :
    ∀ n ptr, ptr + n ≤ s.length → sampleBE s ptr n = beBytes ((s.drop ptr).take n) := by
  intro n
  induction n with
  | zero => intro ptr _; rfl
  | succ n ih =>
    intro ptr h
    rw [sampleBE_succ, ih ptr (by omega)]
    have hlt : n < (s.drop ptr).length := by
      simp only [List.length_drop]
      omega
    have htake : (s.drop ptr).take (n + 1) = (s.drop ptr).take n ++ [(s.drop ptr)[n]] := by
      rw [List.take_succ, List.getElem?_eq_getElem hlt]
      rfl
    rw [htake, beBytes_append_one]
    have hlt2 : ptr + n < s.length := by omega
    have hmem : s[ptr + n] ∈ s := List.getElem_mem _
    have hb : s[ptr + n] < 256 := hwf _ hmem
    rw [List.getD_eq_getElem s 0 hlt2]
    have hgd : (s.drop ptr)[n] = s[ptr + n] := by
      rw [List.getElem_drop]
    rw [hgd, Nat.shiftLeft_eq,
      Nat.mul_comm (beBytes ((s.drop ptr).take n)) ((2:Nat) ^ 8),
      ← Nat.mul_add_lt_is_or hb]

theorem length_filter_or_le (l : List Nat) (p q : Nat → Bool) :
    (l.filter (fun j => p j || q j)).length ≤ (l.filter p).length + (l.filter q).length := by
  induction l with
  | nil => simp
  | cons a t ih =>
    rw [List.filter_cons, List.filter_cons, List.filter_cons]
    cases hp : p a <;> cases hq : q a <;> simp [hp, hq] <;> omega

theorem popCount8_or_le (a b : Nat) : popCount8 (a ||| b) ≤ popCount8 a + popCount8 b := by
  unfold popCount8
  have h : ((List.range 8).filter (fun j => (a ||| b).testBit j))
      = (List.range 8).filter (fun j => a.testBit j || b.testBit j) := by
    apply List.filter_congr
    intro j _
    rw [Nat.testBit_or]
  rw [h]
  exact length_filter_or_le (List.range 8) _ _

theorem popCount8_one_shiftLeft : ∀ j, j < 8 → popCount8 (1 <<< j) = 1 := by decide

theorem countBits_zero_val (W : Nat) : countBits (zero W) = 0 := by
  unfold countBits zero
  rw [List.map_replicate]
  have h : popCount8 0 = 0 := rfl
  rw [h]
  simp

theorem countBits_set_or_le (v : List Nat) : ∀ pos x,
    countBits (v.set pos ((v.getD pos 0) ||| x)) ≤ countBits v + popCount8 x := by
  induction v with
  | nil => intro pos x; simp [countBits]
  | cons b t ih =>
    intro pos x
    cases pos with
    | zero =>
      simp only [List.getD_cons_zero, List.set_cons_zero, countBits, List.map_cons,
        List.sum_cons]
      have h := popCount8_or_le b x
      omega
    | succ p2 =>
      simp only [List.getD_cons_succ, List.set_cons_succ, countBits, List.map_cons,
        List.sum_cons]
      have h := ih p2 x
      simp only [countBits] at h
      omega

theorem countBits_bloomSet_le (m : Nat) (ret : List Nat) (idx : Nat) :
    countBits (bloomSet m ret idx) ≤ countBits ret + 1 := by
  unfold bloomSet
  have h := countBits_set_or_le ret (m - 1 - idx / 8) (1 <<< (idx % 8))
  have h1 : popCount8 (1 <<< (idx % 8)) = 1 :=
    popCount8_one_shiftLeft _ (Nat.mod_lt _ (by norm_num))
  omega

theorem bloomSet_length (m : Nat) (ret : List Nat) (idx : Nat) :
    (bloomSet m ret idx).length = ret.length := by
  unfold bloomSet
  exact List.length_set ..

/-- C1: under the bloom preconditions, bloom_part builds each of its 3 samples
as a big-endian integer from consecutive non-overlapping runs of sample_bytes
leading bytes of S, masks it with M*8 - 1 giving a bit index in [0, M*8), sets
bit (idx % 8) of byte (M - 1 - idx/8) in a fresh all-zero value of width M,
and the result has at most 3 bits set. -/
theorem bloom_part_samples (s : List Nat) (k m : Nat) (hm : m = 2 ^ k)
    (hwf : bytesWF s) (hlen : 3 * sample_bytes m ≤ s.length) :
    ∃ r, bloom_part s m = some r ∧
      r = bloomSet m (bloomSet m (bloomSet m (zero m) (bloomIndex s m 0))
        (bloomIndex s m 1)) (bloomIndex s m 2) ∧
      (∀ i, bloomIndex s m i < m * 8) ∧
      r.length = m ∧ countBits r ≤ 3 := by
  have hpow : m &&& (m - 1) = 0 := by rw [hm]; exact pow_two_and_sub_one k
  have hpos : 0 < m := by rw [hm]; positivity
  set n := sample_bytes m with hn
  have heq := bloom_part_eq s m hpow hlen
  rw [bloomLoop_three] at heq
  have h0 : sampleBE s 0 n = beBytes (bloomRun s n 0) := by
    rw [sampleBE_eq_beBytes s hwf n 0 (by omega)]
    unfold bloomRun
    norm_num
  have h1 : sampleBE s (0 + n) n = beBytes (bloomRun s n 1) := by
    rw [sampleBE_eq_beBytes s hwf n (0 + n) (by omega)]
    unfold bloomRun
    norm_num
  have h2 : sampleBE s (0 + n + n) n = beBytes (bloomRun s n 2) := by
    rw [sampleBE_eq_beBytes s hwf n (0 + n + n) (by omega)]
    unfold bloomRun
    have harg : 2 * n = 0 + n + n := by omega
    rw [harg]
  rw [h0, h1, h2] at heq
  have hIdx : ∀ i, beBytes (bloomRun s n i) &&& (m * 8 - 1) = bloomIndex s m i :=
    fun i => rfl
  rw [hIdx 0, hIdx 1, hIdx 2] at heq
  refine ⟨_, heq, rfl, ?_, ?_, ?_⟩
  · intro i
    unfold bloomIndex
    exact lt_of_le_of_lt Nat.and_le_right (by omega)
  · rw [bloomSet_length, bloomSet_length, bloomSet_length]
    simp [zero]
  · have c0 := countBits_bloomSet_le m (zero m) (bloomIndex s m 0)
    have c1 := countBits_bloomSet_le m
      (bloomSet m (zero m) (bloomIndex s m 0)) (bloomIndex s m 1)
    have c2 := countBits_bloomSet_le m
      (bloomSet m (bloomSet m (zero m) (bloomIndex s m 0)) (bloomIndex s m 1))
      (bloomIndex s m 2)
    have cz := countBits_zero_val m
    omega

/-- Witness for C1 at a concrete 3-byte item bloomed to width 8. -/
theorem bloom_part_samples_witness :
    ∃ r, bloom_part [1, 2, 3] 8 = some r ∧
      r = bloomSet 8 (bloomSet 8 (bloomSet 8 (zero 8) (bloomIndex [1, 2, 3] 8 0))
        (bloomIndex [1, 2, 3] 8 1)) (bloomIndex [1, 2, 3] 8 2) ∧
      (∀ i, bloomIndex [1, 2, 3] 8 i < 8 * 8) ∧
      r.length = 8 ∧ countBits r ≤ 3 :=
  bloom_part_samples [1, 2, 3] 3 8 (by norm_num) (by decide) (by decide)

theorem bloom_part_isSome (s : List Nat) (m : Nat) (hpow : m &&& (m - 1) = 0) :
    (bloom_part s m).isSome ↔ 3 * sample_bytes m ≤ s.length := by
  show (if m &&& (m - 1) ≠ 0 then (none : Option (List Nat))
    else if ¬ (3 * ((log2 (m * 8) + 7) / 8) ≤ s.length) then none
    else some (bloomLoop s m (m * 8 - 1) ((log2 (m * 8) + 7) / 8) 3 (zero m) 0)).isSome
    ↔ 3 * sample_bytes m ≤ s.length
  rw [if_neg (show ¬ (m &&& (m - 1) ≠ 0) by simp [hpow])]
  by_cases h : 3 * ((log2 (m * 8) + 7) / 8) ≤ s.length
  · rw [if_neg (by simpa using h)]
    simp only [Option.isSome_some, true_iff]
    exact h
  · rw [if_pos (by simpa using h)]
    simp only [Option.isSome_none, Bool.false_eq_true, false_iff]
    exact h

/-- Counterexample for C2: at target width M = 32 the code consumes 2 bytes
per sample although one byte can already address every bit position in
[0, 256); with a 3-byte source the claimed precondition 3 * 1 <= 3 holds and
yet the operation panics. -/
theorem sample_bytes_cex :
    sample_bytes 32 = 2 ∧
    32 * 8 = 2 ^ 8 ∧
    claimed_sample_bytes 32 = 1 ∧
    32 * 8 ≤ 256 ^ claimed_sample_bytes 32 ∧
    sample_bytes 32 ≠ claimed_sample_bytes 32 ∧
    bloom_part [0, 0, 0] 32 = none := by decide

/-- C2 (amended): for M*8 = 2^n the per-sample byte count is computed from the
bit length of M*8, sample_bytes = ceil((n + 1) / 8) rather than the minimal
ceil(n / 8); and bloom_part requires 3 * sample_bytes <= S.length(), violation
being a fatal assertion (modelled as none), not a recoverable error. -/
theorem sample_bytes_amended (s : List Nat) (k m : Nat) (hm : m = 2 ^ k)
    (hk : k + 3 < 64) :
    sample_bytes m = (k + 3 + 1 + 7) / 8 ∧
    ((bloom_part s m).isSome ↔ 3 * sample_bytes m ≤ s.length) := by
  subst hm
  refine ⟨?_, bloom_part_isSome s (2 ^ k) (pow_two_and_sub_one k)⟩
  rw [sample_bytes_two_pow k hk]

/-- Witness for C2 (amended) at M = 32 with a 6-byte source. -/
theorem sample_bytes_amended_witness :
    sample_bytes 32 = (5 + 3 + 1 + 7) / 8 ∧
    ((bloom_part [1, 2, 3, 4, 5, 6] 32).isSome ↔
      3 * sample_bytes 32 ≤ [1, 2, 3, 4, 5, 6].length) :=
  sample_bytes_amended [1, 2, 3, 4, 5, 6] 5 32 (by norm_num) (by omega)

theorem bitAnd_zero_right (v : List Nat) : bitAnd v (zero v.length) = zero v.length := by
  induction v with
  | nil => rfl
  | cons x t ih =>
    have hz : zero (t.length + 1) = 0 :: zero t.length := by
      simp [zero, List.replicate_succ]
    simp only [List.length_cons, hz, bitAnd, List.zipWith_cons_cons, Nat.and_zero]
    exact congrArg (List.cons 0) ih

theorem bloomSet_getD_testBit (m : Nat) (ret : List Nat) (idx : Nat)
    (hpos : m - 1 - idx / 8 < ret.length) :
    ((bloomSet m ret idx).getD (m - 1 - idx / 8) 0).testBit (idx % 8) = true := by
  unfold bloomSet
  rw [getD_set, if_pos ⟨rfl, hpos⟩, Nat.testBit_or]
  have h : Nat.testBit (1 <<< (idx % 8)) (idx % 8) = true := by
    rw [Nat.testBit_shiftLeft]
    simp [Nat.testBit_one_zero]
  rw [h, Bool.or_true]

/-- C10: under the bloom preconditions bloom_part always sets at least one bit
(the result is never the zero value), so a fresh all-zero filter reports no
members. -/
theorem bloom_part_nonzero (s : List Nat) (k m : Nat) (hm : m = 2 ^ k)
    (hlen : 3 * sample_bytes m ≤ s.length) :
    ∃ r, bloom_part s m = some r ∧ is_zero m r = false ∧ 1 ≤ countBits r ∧
      contains_bloomed (zero m) s = some false := by
  have hpow : m &&& (m - 1) = 0 := by rw [hm]; exact pow_two_and_sub_one k
  have hpos : 0 < m := by rw [hm]; positivity
  have heq := bloom_part_eq s m hpow hlen
  rw [bloomLoop_three] at heq
  set n := sample_bytes m
  set i2 := sampleBE s (0 + n + n) n &&& (m * 8 - 1) with hi2
  set R2 := bloomSet m (bloomSet m (zero m) (sampleBE s 0 n &&& (m * 8 - 1)))
    (sampleBE s (0 + n) n &&& (m * 8 - 1)) with hR2
  have hR2len : R2.length = m := by
    rw [hR2, bloomSet_length, bloomSet_length]
    simp [zero]
  have hi2lt : i2 < m * 8 := lt_of_le_of_lt Nat.and_le_right (by omega)
  have hposlt : m - 1 - i2 / 8 < R2.length := by rw [hR2len]; omega
  have htb := bloomSet_getD_testBit m R2 i2 hposlt
  have hbyte : (bloomSet m R2 i2).getD (m - 1 - i2 / 8) 0 ≠ 0 := by
    intro h0
    rw [h0] at htb
    simp at htb
  have hne : bloomSet m R2 i2 ≠ zero m := by
    intro hz
    apply hbyte
    rw [hz]
    exact getD_zero_val m _
  have hlen2 : (bloomSet m R2 i2).length = m := by rw [bloomSet_length, hR2len]
  refine ⟨bloomSet m R2 i2, heq, ?_, ?_, ?_⟩
  · unfold is_zero
    exact beq_eq_false_iff_ne.mpr hne
  · have hmem : (bloomSet m R2 i2).getD (m - 1 - i2 / 8) 0 ∈ bloomSet m R2 i2 := by
      rw [List.getD_eq_getElem _ _ (by omega)]
      exact List.getElem_mem _
    have hple : popCount8 ((bloomSet m R2 i2).getD (m - 1 - i2 / 8) 0)
        ≤ countBits (bloomSet m R2 i2) := by
      unfold countBits
      exact List.single_le_sum (fun x _ => Nat.zero_le x) _
        (List.mem_map_of_mem popCount8 hmem)
    have hp1 : 1 ≤ popCount8 ((bloomSet m R2 i2).getD (m - 1 - i2 / 8) 0) := by
      unfold popCount8
      have hmf : i2 % 8 ∈ (List.range 8).filter
          (fun j => ((bloomSet m R2 i2).getD (m - 1 - i2 / 8) 0).testBit j) := by
        rw [List.mem_filter]
        exact ⟨List.mem_range.mpr (Nat.mod_lt _ (by norm_num)), htb⟩
      have hpo := List.length_pos.mpr (List.ne_nil_of_mem hmf)
      omega
    omega
  · have hzl : (zero m).length = m := by simp [zero]
    unfold contains_bloomed
    rw [hzl, heq]
    have hand : bitAnd (bloomSet m R2 i2) (zero m) = zero m := by
      have hba := bitAnd_zero_right (bloomSet m R2 i2)
      rw [hlen2] at hba
      exact hba
    have hcf : contains (zero m) (bloomSet m R2 i2) = false := by
      unfold contains
      rw [hand]
      exact beq_eq_false_iff_ne.mpr (fun h => hne h.symm)
    simp [hcf]

/-- Witness for C10 at a concrete 3-byte item bloomed to width 8. -/
theorem bloom_part_nonzero_witness :
    ∃ r, bloom_part [1, 2, 3] 8 = some r ∧ is_zero 8 r = false ∧ 1 ≤ countBits r ∧
      contains_bloomed (zero 8) [1, 2, 3] = some false :=
  bloom_part_nonzero [1, 2, 3] 3 8 (by norm_num) (by decide)

theorem bloomLoop_length (s : List Nat) (m mask n : Nat) :
    ∀ p (ret : List Nat) (ptr : Nat), (bloomLoop s m mask n p ret ptr).length = ret.length := by
  intro p
  induction p with
  | zero => intro ret ptr; rfl
  | succ p ih =>
    intro ret ptr
    simp only [bloomLoop]
    rw [ih, bloomSet_length]

theorem bloom_part_length (s : List Nat) (m : Nat) (r : List Nat)
    (h : bloom_part s m = some r) : r.length = m := by
  have h2 : (if m &&& (m - 1) ≠ 0 then (none : Option (List Nat))
      else if ¬ (3 * ((log2 (m * 8) + 7) / 8) ≤ s.length) then none
      else some (bloomLoop s m (m * 8 - 1) ((log2 (m * 8) + 7) / 8) 3 (zero m) 0))
      = some r := h
  split at h2
  · exact absurd h2 (by simp)
  · split at h2
    · exact absurd h2 (by simp)
    · have h3 := Option.some.inj h2
      rw [← h3, bloomLoop_length]
      simp [zero]

theorem shift_bloomed_some (f b f2 : List Nat) (h : shift_bloomed f b = some f2) :
    ∃ bp, bloom_part b f.length = some bp ∧ f2 = bitOr bp f ∧ f2.length = f.length := by
  unfold shift_bloomed at h
  cases hbp : bloom_part b f.length with
  | none => rw [hbp] at h; simp at h
  | some bp =>
    rw [hbp] at h
    simp only [Option.map_some', Option.some.injEq] at h
    have hbl : bp.length = f.length := bloom_part_length b f.length bp hbp
    refine ⟨bp, rfl, h.symm, ?_⟩
    rw [← h]
    simp only [bitOr, List.length_zipWith, hbl]
    exact Nat.min_self _

theorem contains_bloomed_shift (f b other f2 : List Nat)
    (hc : contains_bloomed f b = some true)
    (hs : shift_bloomed f other = some f2) :
    contains_bloomed f2 b = some true := by
  obtain ⟨bp2, hbp2, hf2, hlen2⟩ := shift_bloomed_some f other f2 hs
  unfold contains_bloomed at hc ⊢
  cases hbp : bloom_part b f.length with
  | none => rw [hbp] at hc; simp at hc
  | some bp =>
    rw [hbp] at hc
    simp only [Option.map_some', Option.some.injEq] at hc
    rw [hlen2, hbp]
    subst hf2
    simp only [Option.map_some', Option.some.injEq]
    exact contains_bitOr_mono f bp bp2
      (bloom_part_length other f.length bp2 hbp2) hc

theorem insertAll_none (items : List (List Nat)) :
    items.foldl (fun acc it => acc.bind (fun f => shift_bloomed f it)) none = none := by
  induction items with
  | nil => rfl
  | cons it t ih =>
    rw [List.foldl_cons]
    simpa using ih

theorem insertAll_preserves (b : List Nat) : ∀ (items : List (List Nat)) (f f2 : List Nat),
    contains_bloomed f b = some true → insertAll f items = some f2 →
    contains_bloomed f2 b = some true := by
  intro items
  induction items with
  | nil =>
    intro f f2 hc h
    unfold insertAll at h
    simp only [List.foldl_nil, Option.some.injEq] at h
    rw [← h]
    exact hc
  | cons it rest ih =>
    intro f f2 hc h
    unfold insertAll at h ih
    rw [List.foldl_cons] at h
    cases hsf : shift_bloomed f it with
    | none =>
      rw [show ((some f).bind fun g => shift_bloomed g it) = none from by simp [hsf]] at h
      rw [insertAll_none] at h
      exact absurd h (by simp)
    | some f3 =>
      rw [show ((some f).bind fun g => shift_bloomed g it) = some f3 from by simp [hsf]] at h
      exact ih f3 f2 (contains_bloomed_shift f b it f3 hc hsf) h

/-- C3: after shift_bloomed(filter, item) the predicate
contains_bloomed(filter, item) holds, and it keeps holding after any number of
subsequent shift_bloomed insertions of other items (filter bits only
accumulate). -/
theorem shift_bloomed_contains (filter item f1 f2 : List Nat) (items : List (List Nat))
    (h1 : shift_bloomed filter item = some f1)
    (h2 : insertAll f1 items = some f2) :
    contains_bloomed f1 item = some true ∧ contains_bloomed f2 item = some true := by
  obtain ⟨bp, hbp, hf1, hlen1⟩ := shift_bloomed_some filter item f1 h1
  have hbpl : bp.length = filter.length := bloom_part_length item filter.length bp hbp
  have hc1 : contains_bloomed f1 item = some true := by
    unfold contains_bloomed
    rw [hlen1, hbp]
    subst hf1
    simp only [Option.map_some', Option.some.injEq]
    exact contains_bitOr_self bp filter hbpl
  exact ⟨hc1, insertAll_preserves item items f1 f2 hc1 h2⟩

/-- Witness for C3: insert [1,2,3] into an empty 8-byte filter, then insert
[4,5,6]; membership of [1,2,3] holds after both steps. -/
theorem shift_bloomed_contains_witness :
    contains_bloomed [0, 0, 0, 0, 0, 0, 0, 14] [1, 2, 3] = some true ∧
    contains_bloomed [0, 0, 0, 0, 0, 0, 0, 126] [1, 2, 3] = some true :=
  shift_bloomed_contains (zero 8) [1, 2, 3] [0, 0, 0, 0, 0, 0, 0, 14]
    [0, 0, 0, 0, 0, 0, 0, 126] [[4, 5, 6]] (by decide) (by decide)
